import Mathlib

/-!
Verification development for the download-queue application (`app.py`).

The file shallowly embeds the parts of the source the claims depend on:

* the JSON status store (`load_status` / `save_status` / `update_job_status` /
  `cleanup_old_status`), with Python `dict`s embedded as insertion-ordered
  association lists;
* the audio-format fallback logic (`AUDIO_FORMATS`, `get_format_fallbacks`,
  the fetch loop of `process_youtube_download`);
* the speed-limit combination in `DownloadQueue._download_worker`;
* the priority queue (`DownloadQueue.add_task`, i.e. CPython `heapq.heappush`
  on `(-priority, task)` pairs, whose tie comparison of two distinct
  `DownloadTask` objects raises `TypeError`);
* the `/download` submission route;
* a labelled transition system for the scheduler
  (`DownloadQueue._process_queue`, `_download_worker`, `pause_task`,
  `resume_task`, `admin_set_priority`, `set_global_speed_limit`).

Machine floats only ever flow through `min` and comparisons here, so they are
embedded as `ℚ`; timestamps are embedded as epoch seconds.
-/

/-! ## Python values and insertion-ordered dictionaries

A status record is a Python `dict`.  Values occurring in records are strings;
a timestamp string produced by `time.strftime("%Y-%m-%d %H:%M:%S")` is
embedded as `vTime` carrying the epoch seconds `time.mktime(time.strptime _)`
would return for it, and every other string as `vStr`. -/

inductive Value where
  | vStr (s : String)
  | vTime (t : Int)
deriving DecidableEq, Repr

/-- Python string truthiness: the empty string is falsy, every other string
(in particular every well-formed timestamp string) is truthy. -/
def pyTruthy : Value → Bool
  | .vStr s => s ≠ ""
  | .vTime _ => true

/-- Embeds `time.mktime(time.strptime(v, "%Y-%m-%d %H:%M:%S"))`: succeeds
exactly on well-formed timestamp strings, raising `ValueError` otherwise. -/
def mktimeParse : Value → Except Unit Int
  | .vTime t => .ok t
  | .vStr _ => .error ()

/-- Python `d.get(k)` / `d[k]` lookup on an insertion-ordered dict. -/
def alistGet {α : Type} (d : List (String × α)) (k : String) : Option α :=
  (d.find? (fun kv => kv.1 = k)).map (fun kv => kv.2)

/-- Python `d[k] = v`: overwrite in place when the key is present (its
position is kept), append otherwise. -/
def alistSet {α : Type} (d : List (String × α)) (k : String) (v : α) :
    List (String × α) :=
  if d.any (fun kv => kv.1 = k) then
    d.map (fun kv => if kv.1 = k then (k, v) else kv)
  else d ++ [(k, v)]

/-- A status record: one Python dict. -/
abbrev PyDict := List (String × Value)

/-- Python `d.update(u)` (and trailing `**u` in a dict literal): fold the
updates into `d` left to right. -/
def dmerge (d u : PyDict) : PyDict :=
  u.foldl (fun acc kv => alistSet acc kv.1 kv.2) d

/-- The full persisted document: owner name → ordered list of records. -/
abbrev Store := List (String × List PyDict)

/-- The records currently stored under `user` (empty when the owner is
absent), as read by `update_job_status`. -/
def jobsOf (store : Store) (user : String) : List PyDict :=
  (alistGet store user).getD []

/-- The `for job in status_data[user]` search-and-merge loop of
`update_job_status`: returns whether a record with the given id was found,
together with the updated list.  Reading `job["id"]` from a record without an
`"id"` key raises `KeyError` (`.error ()`); a match stops the loop. -/
def updateRecords (jobId : String) (updates : PyDict) :
    List PyDict → Except Unit (Bool × List PyDict)
  | [] => .ok (false, [])
  | job :: rest =>
    match alistGet job "id" with
    | none => .error ()
    | some v =>
      if v = Value.vStr jobId then .ok (true, dmerge job updates :: rest)
      else (updateRecords jobId updates rest).map
        (fun br => (br.1, job :: br.2))

/-- The dict literal `{"id": job_id, "status": "in_progress", **updates}`
used by `update_job_status` when synthesizing a missing record. -/
def newRecordFor (jobId : String) (updates : PyDict) : PyDict :=
  dmerge [("id", Value.vStr jobId), ("status", Value.vStr "in_progress")] updates

/-- Function `update_job_status(user, job_id, updates)` (src/app.py lines 201-223):
load, ensure the owner key exists, merge into the matching record, otherwise
append a synthesized record when `updates` carries a `"title"`, save. -/
def update_job_status (store : Store) (user jobId : String)
    (updates : PyDict) : Except Unit Store := do
  let store₁ := if (alistGet store user).isNone then alistSet store user [] else store
  let jobs := jobsOf store₁ user
  let fr ← updateRecords jobId updates jobs
  let jobs₂ :=
    if fr.1 = false ∧ (alistGet updates "title").isSome then
      fr.2 ++ [newRecordFor jobId updates]
    else fr.2
  pure (alistSet store₁ user jobs₂)

/-! ## Retention sweeper (`cleanup_old_status`, src/app.py lines 226-246) -/

/-- The keep condition of the sweep's list comprehension, evaluated with
Python's short-circuit `or`: a record is kept when its status is not
`"completed"`, or its `completed_at` is missing or falsy; only otherwise is
`completed_at` parsed (which raises on a malformed string) and compared
against the cutoff. -/
def keepDownload (sevenDaysAgo : Int) (d : PyDict) : Except Unit Bool :=
  if alistGet d "status" ≠ some (Value.vStr "completed") then .ok true
  else
    match alistGet d "completed_at" with
    | none => .ok true
    | some v =>
      if pyTruthy v = false then .ok true
      else (mktimeParse v).map (fun tm => decide (tm > sevenDaysAgo))

/-- The list comprehension of `cleanup_old_status` over one owner's list. -/
def filterKeep (sevenDaysAgo : Int) : List PyDict → Except Unit (List PyDict)
  | [] => .ok []
  | d :: ds => do
    let b ← keepDownload sevenDaysAgo d
    let rest ← filterKeep sevenDaysAgo ds
    pure (if b then d :: rest else rest)

/-- The `for username in status_data` loop of `cleanup_old_status`: prune
each owner's list in order, propagating the first exception. -/
def sweepOwners (sevenDaysAgo : Int) : Store → Except Unit Store
  | [] => .ok []
  | p :: ps => do
    let ds ← filterKeep sevenDaysAgo p.2
    let rest ← sweepOwners sevenDaysAgo ps
    pure ((p.1, ds) :: rest)

/-- Function `cleanup_old_status()` at current time `T`: prune every owner's list.
Any exception (a malformed `completed_at` reached by the comprehension)
is caught by the surrounding `try` before `save_status` runs, so the
persisted document is then left unchanged. -/
def cleanup_old_status (store : Store) (T : Int) : Store :=
  match sweepOwners (T - 7 * 24 * 60 * 60) store with
  | .ok store' => store'
  | .error _ => store

/-- Records under the given owner are searchable without a `KeyError` and
none of them matches the given id: the record has an `"id"` key whose value
differs from `jobId`. -/
def noMatchingId (jobId : String) (job : PyDict) : Bool :=
  match alistGet job "id" with
  | some v => v ≠ Value.vStr jobId
  | none => false

/-- Well-formedness of one stored record for the sweeper: if its status is
`"completed"` and it carries a truthy `completed_at`, that value is a
well-formed timestamp string (so `time.strptime` does not raise). -/
def WFRecord (d : PyDict) : Bool :=
  !(alistGet d "status" = some (Value.vStr "completed")) ||
  (match alistGet d "completed_at" with
   | some (Value.vStr s) => s = ""
   | _ => true)

/-- Record-removal predicate in the words of claim C7: status `"completed"`,
a (truthy) `completed_at` timestamp, and `completed_at` **more than** 7 days
before `T`. -/
def removedByClaim (T : Int) (d : PyDict) : Bool :=
  alistGet d "status" = some (Value.vStr "completed") &&
  match alistGet d "completed_at" with
  | some (Value.vTime tm) => decide (T - tm > 604800)
  | _ => false

/-- Record-removal predicate of the amended claim C7: as `removedByClaim`,
but with the boundary included — removal at **7 days or more** before `T`. -/
def staleCompleted (T : Int) (d : PyDict) : Bool :=
  alistGet d "status" = some (Value.vStr "completed") &&
  match alistGet d "completed_at" with
  | some (Value.vTime tm) => decide (T - tm ≥ 604800)
  | _ => false

/-! ## Audio formats and fallback (src/app.py lines 24-32, 271-278, 327-356) -/

def AUDIO_FORMATS : List (String × String) :=
  [("flac", "FLAC (Lossless)"),
   ("wav", "WAV (Lossless)"),
   ("aac", "AAC (High Quality)"),
   ("m4a", "M4A (High Quality)"),
   ("opus", "Opus (High Quality)"),
   ("vorbis", "Vorbis (High Quality)"),
   ("mp3", "MP3 (Compatible)")]

def format_order : List String := AUDIO_FORMATS.map (fun f => f.1)

/-- Function `get_format_fallbacks(preferred_format)`: rotate the catalog to start at
the preferred format; `list.index` raising `ValueError` for an unknown format
is caught and yields the full catalog in declared order. -/
def get_format_fallbacks (preferred : String) : List String :=
  if preferred ∈ format_order then
    format_order.drop (format_order.indexOf preferred) ++
      format_order.take (format_order.indexOf preferred)
  else format_order

/-- The formats actually handed to the external tool by the fetch loop of
`process_youtube_download`, in invocation order: the loop stops at the first
candidate whose subprocess returns 0. -/
def attemptFormats (fetch : String → Bool) : List String → List String
  | [] => []
  | f :: fs => if fetch f then [f] else f :: attemptFormats fetch fs

/-- The format the fetch loop succeeds on, if any. -/
def firstSuccess (fetch : String → Bool) : List String → Option String
  | [] => none
  | f :: fs => if fetch f then some f else firstSuccess fetch fs

/-- Embeds `process_youtube_download` with the external fetch call abstracted as a
success predicate on the format: returns the invocation trace and the
succeeding format. -/
def process_youtube_download (fetch : String → Bool) (preferred : String) :
    List String × Option String :=
  (attemptFormats fetch (get_format_fallbacks preferred),
   firstSuccess fetch (get_format_fallbacks preferred))

/-! ## Speed-limit combination (`_download_worker`, src/app.py lines 146-155) -/

/-- The `speed_limit` value computed by `_download_worker` and passed to
`process_download`:
`speed_limit = min(speed_limit, task.speed_limit) if speed_limit else task.speed_limit`
guarded by `if task.speed_limit is not None`.  Note the Python truthiness
test `if speed_limit`: a global limit of `0.0` (like `None`) selects the
task's own limit. -/
def effective_speed_limit (globalLimit taskLimit : Option ℚ) : Option ℚ :=
  match taskLimit with
  | none => globalLimit
  | some t =>
    match globalLimit with
    | none => some t
    | some g => if g = 0 then some t else some (min g t)

/-! ## The priority queue (`DownloadQueue.add_task`, CPython `heapq`)

`add_task` executes `self.queue.put((-task.priority, task))`, and
`queue.PriorityQueue.put` is `heapq.heappush` on the underlying list.
Pushing sifts the new entry up, comparing `(-priority, task)` tuples:
Python tuple comparison compares the integer keys first and falls through to
the `DownloadTask` objects only when the keys are equal; `DownloadTask` is a
dataclass without ordering, so comparing two distinct tasks raises
`TypeError`.  Comparisons are therefore embedded in `Except`. -/

/-- A `DownloadTask` as built by the `/download` route (the fields the queue
and the routes touch). -/
structure DLTask where
  id : String
  url : String
  user : String
  priority : Int
deriving DecidableEq, Repr

/-- Python `<` on `(-priority, task)` tuples: decide on the integer keys if
they differ; on equal keys, equal tasks compare by tuple length (not less),
while distinct tasks raise `TypeError`. -/
def pyEntryLt {α : Type} [DecidableEq α] (a b : Int × α) : Except Unit Bool :=
  if a.1 = b.1 then
    (if a.2 = b.2 then .ok false else .error ())
  else .ok (decide (a.1 < b.1))

/-- CPython `heapq._siftdown(heap, 0, pos)` with `newitem = heap[pos]`:
walk ancestors of `pos`, moving each parent down while `newitem` compares
less, then place `newitem`.  The parent index `(pos - 1) / 2` strictly
decreases, so a fuel of `pos + 1` (here: list length + 1) always suffices;
the fuel-exhausted branch coincides with the `pos = 0` branch and is never
the deciding one.

Python lists mutate in place and a raise does not roll them back: the
`newitem < parent` comparison raises *before* this iteration's
`heap[pos] = parent` write and before `newitem`'s final placement, so on a
`TypeError` the list is left exactly as the prior iterations made it.  The
error therefore carries that list — the state `self.queue.queue` keeps. -/
def siftdownFuel {α : Type} (lt : α → α → Except Unit Bool) :
    Nat → List α → α → Nat → Except (List α) (List α)
  | 0, heap, newitem, pos => .ok (heap.set pos newitem)
  | fuel + 1, heap, newitem, pos =>
    if pos = 0 then .ok (heap.set pos newitem)
    else
      match heap.get? ((pos - 1) / 2) with
      | none => .error heap
      | some parent =>
        match lt newitem parent with
        | .error _ => .error heap
        | .ok true => siftdownFuel lt fuel (heap.set pos parent) newitem ((pos - 1) / 2)
        | .ok false => .ok (heap.set pos newitem)

/-- CPython `heapq.heappush`: `heap.append(item)`, then sift up from the
last position.  The append happens before any comparison, so when the sift
raises on its very first comparison the error carries `heap ++ [item]`:
the new entry is already in the shared list and stays there. -/
def heappushE {α : Type} (lt : α → α → Except Unit Bool)
    (heap : List α) (item : α) : Except (List α) (List α) :=
  siftdownFuel lt (heap.length + 1) (heap ++ [item]) item heap.length

/-- Method `DownloadQueue.add_task(task)`: `self.queue.put((-task.priority, task))`.
A `TypeError` from an equal-priority comparison propagates to the caller,
but the entry was appended by `heappush` before the comparison ran and
`PriorityQueue.put` performs no rollback: the error carries the queue list
as the raise left it, which is what `self.queue.queue` then holds. -/
def add_task (q : List (Int × DLTask)) (t : DLTask) :
    Except (List (Int × DLTask)) (List (Int × DLTask)) :=
  heappushE pyEntryLt q (-t.priority, t)

/-- A sequence of `add_task` calls starting from the given queue state. -/
def add_tasks (q : List (Int × DLTask)) (ts : List DLTask) :
    Except (List (Int × DLTask)) (List (Int × DLTask)) :=
  ts.foldlM add_task q

/-! ## The `/download` submission route (src/app.py lines 550-573) -/

/-- Outcome of one `/download` request: `serverError` models an uncaught
exception (a 500 response), `rejected` the flash-and-redirect on an empty
url, `queued` a successful enqueue. -/
inductive SubmitOutcome where
  | serverError
  | rejected
  | queued (t : DLTask)
deriving DecidableEq, Repr

/-- Python `str.strip()`: drop leading and trailing whitespace. -/
def pyStrip (s : String) : String :=
  ⟨((s.data.dropWhile Char.isWhitespace).reverse.dropWhile
      Char.isWhitespace).reverse⟩

/-- The `/download` handler: read and strip the url, read the owner from the
session, parse the priority (`int(...)`, whose `ValueError` is modelled by
`formPriority = none`), reject an empty stripped url, otherwise build a task
with a fresh id and hand it to `add_task`.  The owner is never examined.
When `add_task` raises, the request answers 500, but the shared queue keeps
whatever state the failed push left in it — the appended entry is not
removed. -/
def download_route (freshId : String) (formUrl owner : String)
    (formPriority : Option Int) (pending : List (Int × DLTask)) :
    SubmitOutcome × List (Int × DLTask) :=
  match formPriority with
  | none => (.serverError, pending)
  | some p =>
    let url := pyStrip formUrl
    if url = "" then (.rejected, pending)
    else
      let t : DLTask := ⟨freshId, url, owner, p⟩
      match add_task pending t with
      | .ok pending' => (.queued t, pending')
      | .error pending' => (.serverError, pending')

/-! ## The scheduler as a labelled transition system

One dispatcher thread (`_process_queue`), one worker thread per admitted
task (`_download_worker`), and the control operations (`pause_task`,
`resume_task`, `admin_set_priority`, `set_global_speed_limit`) interleave.
The dispatcher's position between its lock regions is modelled by a program
counter: `idle` (about to re-check capacity) or `holding t` (after
`queue.get` returned `t`, before the paused check / insertion into
`active_downloads`).  While held, `t` is in neither collection, so the
control operations cannot see it — exactly as in the source.

The pending collection is modelled as a list from which `queue.get` removes
an arbitrary element.  This over-approximates the heap's removal choice
(and any element the heap's tie-comparison `TypeError`s may drop), which is
sound for the safety properties proved about active-set size and paused
tasks: they hold whichever pending element each `get` returns. -/

/-- The task fields the scheduler's control flow reads or writes. -/
structure QTask where
  id : Nat
  priority : Int
  paused : Bool
deriving DecidableEq, Repr

/-- Dispatcher program counter. -/
inductive DispatchPC where
  | idle
  | holding (t : QTask)
deriving DecidableEq, Repr

/-- Scheduler state: the pending collection, the active set
(`active_downloads`), the dispatcher position, and the global speed limit. -/
structure SchedState where
  pending : List QTask
  active : List QTask
  pc : DispatchPC
  globalLimit : Option ℚ
deriving DecidableEq, Repr

/-- The initial state of a fresh `DownloadQueue`. -/
def initState : SchedState := ⟨[], [], .idle, none⟩

/-- Mutate the first task with the given id (Python mutates the single dict
entry / the first queue entry found and returns). -/
def updFirst (i : Nat) (g : QTask → QTask) : List QTask → List QTask
  | [] => []
  | t :: ts => if t.id = i then g t :: ts else t :: updFirst i g ts

/-- The lookup discipline shared by `pause_task` / `resume_task` /
`admin_set_priority`: mutate the task in the active set when present there,
otherwise the first match in the pending collection. -/
def updById (i : Nat) (g : QTask → QTask) (s : SchedState) : SchedState :=
  if s.active.any (fun t => t.id = i) then
    { s with active := updFirst i g s.active }
  else
    { s with pending := updFirst i g s.pending }

/-- Step labels: one per interleaved atomic action of the source. -/
inductive Lbl where
  | submit (t : QTask)
  | get (t : QTask)
  | requeue
  | handoff
  | finish (i : Nat)
  | pause (i : Nat)
  | resume (i : Nat)
  | setPriority (i : Nat) (p : Int)
  | setLimit (v : Option ℚ)
deriving DecidableEq

/-- One atomic step of the system, for a scheduler built with
`max_concurrent = max`:

* `submit`: `add_task` appends to the pending collection;
* `get`: the dispatcher, at its loop head and having seen
  `len(active_downloads) < max_concurrent` under the lock, removes some
  pending task (`self.queue.get`);
* `requeue`: the removed task is paused — put it back;
* `handoff`: the removed task is not paused — insert it into
  `active_downloads` and start its worker;
* `finish`: a worker completes and pops its task from `active_downloads`;
* `pause` / `resume` / `setPriority`: control-surface mutation of the task's
  flag or priority in place;
* `setLimit`: `set_global_speed_limit`. -/
inductive Step (max : Nat) : SchedState → Lbl → SchedState → Prop where
  | submit (s : SchedState) (t : QTask) :
      Step max s (.submit t) { s with pending := s.pending ++ [t] }
  | get (s : SchedState) (t : QTask) (l₁ l₂ : List QTask) :
      s.pc = .idle → s.active.length < max → s.pending = l₁ ++ t :: l₂ →
      Step max s (.get t) { s with pending := l₁ ++ l₂, pc := .holding t }
  | requeue (s : SchedState) (t : QTask) :
      s.pc = .holding t → t.paused = true →
      Step max s .requeue { s with pending := s.pending ++ [t], pc := .idle }
  | handoff (s : SchedState) (t : QTask) :
      s.pc = .holding t → t.paused = false →
      Step max s .handoff { s with active := s.active ++ [t], pc := .idle }
  | finish (s : SchedState) (t : QTask) (l₁ l₂ : List QTask) :
      s.active = l₁ ++ t :: l₂ →
      Step max s (.finish t.id) { s with active := l₁ ++ l₂ }
  | pause (s : SchedState) (i : Nat) :
      Step max s (.pause i) (updById i (fun t => { t with paused := true }) s)
  | resume (s : SchedState) (i : Nat) :
      Step max s (.resume i) (updById i (fun t => { t with paused := false }) s)
  | setPriority (s : SchedState) (i : Nat) (p : Int) :
      Step max s (.setPriority i p) (updById i (fun t => { t with priority := p }) s)
  | setLimit (s : SchedState) (v : Option ℚ) :
      Step max s (.setLimit v) { s with globalLimit := v }

/-- States reachable from a fresh `DownloadQueue(max_concurrent = max)`. -/
inductive Reach (max : Nat) : SchedState → Prop where
  | init : Reach max initState
  | step {s : SchedState} {l : Lbl} {s' : SchedState} :
      Reach max s → Step max s l s' → Reach max s'

/-- A finite labelled execution between two states. -/
inductive Exec (max : Nat) : SchedState → List Lbl → SchedState → Prop where
  | refl (s : SchedState) : Exec max s [] s
  | cons {s : SchedState} {l : Lbl} {s' : SchedState} {ls : List Lbl}
      {s'' : SchedState} :
      Step max s l s' → Exec max s' ls s'' → Exec max s (l :: ls) s''

/-- Labels that do not resume task `i` and do not submit a second task
carrying id `i`. -/
def okLbl (i : Nat) : Lbl → Bool
  | .submit t => t.id ≠ i
  | .resume j => j ≠ i
  | _ => true

/-- The task with id `i` is pinned down as paused: every pending task with
that id has `paused = true`, so does a held one, and no active task carries
the id. -/
def pausedPinned (i : Nat) (s : SchedState) : Bool :=
  s.pending.all (fun t => !(t.id = i) || t.paused) &&
  (match s.pc with
   | .idle => true
   | .holding t => !(t.id = i) || t.paused) &&
  s.active.all (fun t => !(t.id = i))

/-- No task in the active set carries id `i`: the task was never handed to a
worker. -/
def noActiveId (i : Nat) (s : SchedState) : Bool :=
  s.active.all (fun t => !(t.id = i))

/-- Auxiliary invariant for the concurrency bound: the active set respects
the bound, and strictly so while the dispatcher holds a task it took after
its capacity check (workers only ever shrink the active set in between). -/
def BoundInv (max : Nat) (s : SchedState) : Prop :=
  s.active.length ≤ max ∧
  (match s.pc with
   | .idle => True
   | .holding _ => s.active.length < max)

/-! ## Aliasing of live task objects (`get_all_tasks`, `admin_set_priority`)

Python task objects are references.  `DownloadQueue.get_all_tasks` builds a
new *list* (`list(...)` / `extend`) but its elements are the scheduler's own
`DownloadTask` objects.  The object graph is embedded as an arena: `heap`
holds the task objects, and the active set and pending queue hold indices
(references) into it.  Mutating `heap[r]` through a reference returned by
`get_all_tasks` is exactly what `admin_set_priority` does
(src/app.py lines 879-899). -/

/-- A live `DownloadTask` object (the fields the admin routes touch). -/
structure TaskRec where
  id : String
  priority : Int
  paused : Bool
deriving DecidableEq, Repr

/-- The scheduler's collections, with task objects in an arena and the
collections holding references. -/
structure QueueRefState where
  heap : List TaskRec
  activeRefs : List Nat
  pendingRefs : List (Int × Nat)
deriving DecidableEq, Repr

/-- Method `get_all_tasks()`: a fresh list whose elements are references to
the scheduler's own task objects — active downloads first, then the queued
tasks. -/
def get_all_tasks (s : QueueRefState) : List Nat :=
  s.activeRefs ++ s.pendingRefs.map (fun e => e.2)

/-- Whether the object behind reference `r` carries the given task id. -/
def refHasId (s : QueueRefState) (tid : String) (r : Nat) : Bool :=
  match s.heap.get? r with
  | some t => t.id = tid
  | none => false

/-- Route `admin_set_priority`: iterate over `get_all_tasks()`, and on the
first task whose id matches, assign `task.priority = priority` — a mutation
through the shared reference, visible in the scheduler's own record. -/
def admin_set_priority (s : QueueRefState) (tid : String) (p : Int) :
    QueueRefState :=
  match (get_all_tasks s).find? (refHasId s tid) with
  | none => s
  | some r =>
    match s.heap.get? r with
    | some t => { s with heap := s.heap.set r { t with priority := p } }
    | none => s

/-! # Theorems -/

/-! ## List helpers -/

/-- Additive counting identity for `List.set`. -/
theorem count_set_add {α : Type} [DecidableEq α] :
    ∀ (l : List α) (n : Nat) (hn : n < l.length) (b a : α),
    (l.set n b).count a + (if l.get ⟨n, hn⟩ = a then 1 else 0) =
      l.count a + (if b = a then 1 else 0)
  | [], n, hn, b, a => by simp at hn
  | c :: t, 0, hn, b, a => by
    simp [List.count_cons]
    by_cases hb : b = a <;> by_cases hc : c = a <;> simp [hb, hc]
  | c :: t, n + 1, hn, b, a => by
    have hn' : n < t.length := by simpa using hn
    have ih := count_set_add t n hn' b a
    simp only [List.set_cons_succ, List.count_cons, List.get_cons_succ,
      List.get_eq_getElem] at ih ⊢
    by_cases hc : c = a <;> simp [hc] <;> omega

/-- Writing `x` at position `p` and the old `heap[p]` at position `pos` is a
permutation of writing `x` at position `pos` directly. -/
theorem set_set_swap_perm {α : Type} [DecidableEq α] (heap : List α)
    (pos p : Nat) (hp : p ≠ pos) (hposlt : pos < heap.length)
    (hplt : p < heap.length) (x : α) :
    ((heap.set pos (heap.get ⟨p, hplt⟩)).set p x).Perm (heap.set pos x) := by
  apply List.perm_iff_count.2
  intro a
  set parent := heap.get ⟨p, hplt⟩ with hparent
  have h₁ : p < (heap.set pos parent).length := by simpa using hplt
  have e₁ := count_set_add (heap.set pos parent) p h₁ x a
  have e₂ := count_set_add heap pos hposlt parent a
  have e₃ := count_set_add heap pos hposlt x a
  have hgp : (heap.set pos parent).get ⟨p, h₁⟩ = parent := by
    have := List.getElem_set_ne (l := heap) (i := pos) (j := p)
      (by omega) (a := parent) (by simpa using hplt)
    simpa [List.get_eq_getElem] using this
  rw [hgp] at e₁
  by_cases hxa : x = a <;> by_cases hpa : parent = a <;>
    by_cases hha : heap.get ⟨pos, hposlt⟩ = a <;>
    simp [hxa, hpa, hha] at e₁ e₂ e₃ ⊢ <;> omega

/-- Setting the appended last element again leaves the other positions. -/
theorem set_append_length {α : Type} : ∀ (l : List α) (a x : α),
    (l ++ [a]).set l.length x = l ++ [x]
  | [], a, x => rfl
  | c :: t, a, x => by
    simp only [List.cons_append, List.length_cons, List.set_cons_succ]
    rw [set_append_length t a x]

/-- A successful sift-up is a permutation of just writing the new item at
the start position. -/
theorem siftdownFuel_perm {α : Type} [DecidableEq α]
    (lt : α → α → Except Unit Bool) :
    ∀ (fuel : Nat) (heap : List α) (x : α) (pos : Nat) (h' : List α),
    pos < heap.length → siftdownFuel lt fuel heap x pos = .ok h' →
    h'.Perm (heap.set pos x)
  | 0, heap, x, pos, h', hlt, hok => by
    simp only [siftdownFuel, Except.ok.injEq] at hok
    exact hok ▸ List.Perm.refl _
  | fuel + 1, heap, x, pos, h', hlt, hok => by
    simp only [siftdownFuel] at hok
    by_cases h0 : pos = 0
    · subst h0
      simp at hok
      exact hok ▸ List.Perm.refl _
    · rw [if_neg h0] at hok
      have hppos : (pos - 1) / 2 < pos := by omega
      have hplt : (pos - 1) / 2 < heap.length := by omega
      cases hget : heap.get? ((pos - 1) / 2) with
      | none =>
        rw [hget] at hok
        simp at hok
      | some parent =>
        rw [hget] at hok
        dsimp only at hok
        have hpar : parent = heap.get ⟨(pos - 1) / 2, hplt⟩ := by
          rw [List.get?_eq_get hplt] at hget
          exact (Option.some.inj hget).symm
        cases hcmp : lt x parent with
        | error e =>
          rw [hcmp] at hok
          simp at hok
        | ok b =>
          rw [hcmp] at hok
          cases b with
          | false =>
            simp only [Except.ok.injEq] at hok
            exact hok ▸ List.Perm.refl _
          | true =>
            have hplt' : (pos - 1) / 2 < (heap.set pos parent).length := by
              simpa using hplt
            have ih := siftdownFuel_perm lt fuel (heap.set pos parent) x
              ((pos - 1) / 2) h' hplt' hok
            rw [hpar] at ih
            exact ih.trans
              (set_set_swap_perm heap pos ((pos - 1) / 2) (by omega) hlt hplt x)

/-- A successful `heappush` holds exactly the old entries plus the new one. -/
theorem heappushE_perm {α : Type} [DecidableEq α]
    (lt : α → α → Except Unit Bool) (heap : List α) (item : α)
    (h' : List α) (hok : heappushE lt heap item = .ok h') :
    h'.Perm (item :: heap) := by
  have hlt : heap.length < (heap ++ [item]).length := by simp
  have := siftdownFuel_perm lt (heap.length + 1) (heap ++ [item]) item
    heap.length h' hlt hok
  rw [set_append_length] at this
  exact this.trans (List.perm_append_singleton item heap)

/-- A raising sift leaves a list of the same length as the one it mutated:
every write is an in-place `set` and the raise performs no rollback. -/
theorem siftdownFuel_error_length {α : Type} (lt : α → α → Except Unit Bool) :
    ∀ (fuel : Nat) (heap : List α) (x : α) (pos : Nat) (h' : List α),
    siftdownFuel lt fuel heap x pos = .error h' → h'.length = heap.length
  | 0, heap, x, pos, h', herr => by simp [siftdownFuel] at herr
  | fuel + 1, heap, x, pos, h', herr => by
    simp only [siftdownFuel] at herr
    by_cases h0 : pos = 0
    · rw [if_pos h0] at herr
      cases herr
    · rw [if_neg h0] at herr
      cases hget : heap.get? ((pos - 1) / 2) with
      | none =>
        rw [hget] at herr
        simp only [Except.error.injEq] at herr
        rw [herr]
      | some parent =>
        rw [hget] at herr
        dsimp only at herr
        cases hcmp : lt x parent with
        | error e =>
          rw [hcmp] at herr
          simp only [Except.error.injEq] at herr
          rw [herr]
        | ok b =>
          rw [hcmp] at herr
          cases b with
          | false => cases herr
          | true =>
            have := siftdownFuel_error_length lt fuel (heap.set pos parent) x
              ((pos - 1) / 2) h' herr
            simpa using this

/-- A raising `heappush` leaves the appended entry in the list: the queue
has grown by exactly one slot. -/
theorem heappushE_error_length {α : Type} (lt : α → α → Except Unit Bool)
    (heap : List α) (item : α) (h' : List α)
    (herr : heappushE lt heap item = .error h') :
    h'.length = heap.length + 1 := by
  have := siftdownFuel_error_length lt (heap.length + 1) (heap ++ [item])
    item heap.length h' herr
  simpa using this

/-- When the very first sift comparison raises — the common case, e.g. the
parent entry already carries the same priority key — the failed push leaves
the queue list exactly as `append` made it: the old entries followed by the
new one. -/
theorem heappushE_error_first {α : Type} (lt : α → α → Except Unit Bool)
    (heap : List α) (item : α) (parent : α) (e : Unit)
    (hne : heap ≠ [])
    (hpar : heap.get? ((heap.length - 1) / 2) = some parent)
    (herr : lt item parent = .error e) :
    heappushE lt heap item = .error (heap ++ [item]) := by
  have hlen : 0 < heap.length := List.length_pos.2 hne
  have hplt : (heap.length - 1) / 2 < heap.length := by omega
  have hpar' : (heap ++ [item]).get? ((heap.length - 1) / 2) = some parent := by
    rw [List.get?_eq_getElem?, List.getElem?_append_left hplt,
      ← List.get?_eq_getElem?]
    exact hpar
  rw [heappushE]
  simp only [siftdownFuel]
  rw [if_neg (by omega), hpar']
  dsimp only
  rw [herr]

/-! ## C1 — priority ordering with ties -/

/-- C1: submitting three tasks with priorities 5, 1, 5 cannot yield the
dispatch order task#1, task#3, task#2, because the third `add_task` raises:
after `heappush` appends `(-5, task#3)`, the sift compares it against
`(-5, task#1)`, whose equal integer keys make Python compare the two
distinct `DownloadTask` objects — a `TypeError`, since the dataclass
defines no ordering.  The request fails with a 500 while the appended entry
lingers un-sifted in the queue list (the error payload below), and any
equal-priority pop raises the same way inside `_siftup`, so no FIFO
tie-break order ever materialises in the code. -/
theorem C1_equal_priority_put_raises :
    add_tasks [] [⟨"task1", "url1", "alice", 5⟩, ⟨"task2", "url2", "alice", 1⟩,
      ⟨"task3", "url3", "alice", 5⟩] =
      .error [(-5, ⟨"task1", "url1", "alice", 5⟩),
              (-1, ⟨"task2", "url2", "alice", 1⟩),
              (-5, ⟨"task3", "url3", "alice", 5⟩)] := by
  rfl

/-! ## C4 — format fallback -/

/-- The fetch loop attempts exactly the failing prefix followed by the first
succeeding candidate. -/
theorem attemptFormats_eq (fetch : String → Bool) :
    ∀ l : List String,
    attemptFormats fetch l =
      l.takeWhile (fun f => !(fetch f)) ++ (l.find? fetch).toList
  | [] => rfl
  | f :: fs => by
    by_cases h : fetch f <;>
      simp [attemptFormats, List.takeWhile_cons, List.find?_cons, h,
        attemptFormats_eq fetch fs]

/-- The fetch loop's result is the first succeeding candidate. -/
theorem firstSuccess_eq (fetch : String → Bool) :
    ∀ l : List String, firstSuccess fetch l = l.find? fetch
  | [] => rfl
  | f :: fs => by
    by_cases h : fetch f <;>
      simp [firstSuccess, List.find?_cons, h, firstSuccess_eq fetch fs]

/-- C4: for a preferred format in the catalog, the candidate list is the
catalog rotated to start at that format (hence a permutation of the whole
catalog — every supported format exactly once, as the catalog has no
duplicates); for an unknown preferred format it is the catalog in declared
order; and the worker invokes fetch on the candidates in that order,
attempting exactly the failing prefix and stopping at the first success. -/
theorem C4_format_fallback (preferred : String) (fetch : String → Bool) :
    (preferred ∈ format_order →
      get_format_fallbacks preferred =
        format_order.rotate (format_order.indexOf preferred)) ∧
    (preferred ∉ format_order → get_format_fallbacks preferred = format_order) ∧
    (get_format_fallbacks preferred).Perm format_order ∧
    format_order.Nodup ∧
    process_youtube_download fetch preferred =
      ((get_format_fallbacks preferred).takeWhile (fun f => !(fetch f)) ++
         ((get_format_fallbacks preferred).find? fetch).toList,
       (get_format_fallbacks preferred).find? fetch) := by
  have hrot : preferred ∈ format_order →
      get_format_fallbacks preferred =
        format_order.rotate (format_order.indexOf preferred) := by
    intro hmem
    have hle : format_order.indexOf preferred ≤ format_order.length :=
      List.indexOf_le_length
    rw [get_format_fallbacks, if_pos hmem, List.rotate_eq_drop_append_take hle]
  refine ⟨hrot, ?_, ?_, by decide, ?_⟩
  · intro hmem
    rw [get_format_fallbacks, if_neg hmem]
  · by_cases hmem : preferred ∈ format_order
    · rw [hrot hmem]
      exact List.rotate_perm format_order (format_order.indexOf preferred)
    · rw [get_format_fallbacks, if_neg hmem]
  · rw [process_youtube_download, attemptFormats_eq, firstSuccess_eq]

/-- Witness for C4 at the concrete preferred format `"aac"`: the candidate
list is the catalog rotated to position 2. -/
theorem C4_format_fallback_witness :
    get_format_fallbacks "aac" =
      format_order.rotate (format_order.indexOf "aac") :=
  (C4_format_fallback "aac" (fun f => f == "mp3")).1 (by decide)

/-! ## C5 — speed-limit combination -/

/-- C5 (amended): the effective limit handed to `process_download` is the
minimum of global and task limit when both are set and the global limit is
nonzero; a global limit of `0.0` is falsy in Python and is ignored in favour
of the task limit; with only one limit set that one is used; with neither,
no cap. -/
theorem C5_speed_limit_amended (g t : ℚ) :
    effective_speed_limit none none = none ∧
    effective_speed_limit none (some t) = some t ∧
    effective_speed_limit (some g) none = some g ∧
    (g ≠ 0 → effective_speed_limit (some g) (some t) = some (min g t)) ∧
    effective_speed_limit (some 0) (some t) = some t := by
  refine ⟨rfl, rfl, rfl, ?_, ?_⟩
  · intro hg
    simp [effective_speed_limit, hg]
  · simp [effective_speed_limit]

/-- Witness for C5 at the spec's own scenario: global `2.0` and task `5.0`
give `2.0`; absent global and task `5.0` give `5.0`. -/
theorem C5_speed_limit_witness :
    effective_speed_limit (some 2) (some 5) = some (min (2 : ℚ) 5) ∧
    min (2 : ℚ) 5 = 2 ∧
    effective_speed_limit none (some 5) = some 5 :=
  ⟨(C5_speed_limit_amended 2 5).2.2.2.1 (by norm_num), by norm_num,
   (C5_speed_limit_amended 2 5).2.1⟩

/-- Counterexample for C5 as stated: with a global limit of `0.0` and a task
limit of `5.0` both set, the code passes `5.0`, not the minimum `0.0` —
Python's `if speed_limit` treats a zero global limit as unset. -/
theorem C5_speed_limit_counterexample :
    effective_speed_limit (some 0) (some 5) = some 5 ∧
    ¬ effective_speed_limit (some 0) (some 5) = some (min (0 : ℚ) 5) := by
  constructor
  · rfl
  · rw [show min (0 : ℚ) 5 = 0 by norm_num]
    simp [effective_speed_limit]

/-! ## C7 — retention sweep -/

/-- On a well-formed record the keep condition evaluates without raising, to
the negation of the stale-completed predicate. -/
theorem keepDownload_eq_of_wf (T : Int) (d : PyDict)
    (hwf : WFRecord d = true) :
    keepDownload (T - 7 * 24 * 60 * 60) d = .ok (!staleCompleted T d) := by
  rw [keepDownload, staleCompleted]
  by_cases hstatus : alistGet d "status" = some (Value.vStr "completed")
  · rw [if_neg (by simp [hstatus])]
    rw [WFRecord, hstatus] at hwf
    cases hca : alistGet d "completed_at" with
    | none => simp [hstatus]
    | some v =>
      rw [hca] at hwf
      cases v with
      | vStr s =>
        simp at hwf
        subst hwf
        simp [hstatus, pyTruthy]
      | vTime tm =>
        simp [hstatus, pyTruthy, mktimeParse, Except.map]
        by_cases h : T - tm ≥ 604800 <;> simp [h] <;> omega
  · rw [if_pos (by simp [hstatus])]
    simp [hstatus]

/-- On a list of well-formed records the comprehension is an ordinary
filter by the non-stale predicate. -/
theorem filterKeep_eq_of_wf (T : Int) : ∀ ds : List PyDict,
    (∀ d ∈ ds, WFRecord d = true) →
    filterKeep (T - 7 * 24 * 60 * 60) ds =
      .ok (ds.filter (fun d => !staleCompleted T d))
  | [], _ => rfl
  | d :: ds, h => by
    have hd := keepDownload_eq_of_wf T d (h d (by simp))
    have hds := filterKeep_eq_of_wf T ds (fun x hx => h x (by simp [hx]))
    rw [filterKeep, hd, hds]
    by_cases hb : staleCompleted T d <;>
      simp only [List.filter_cons, hb, Bool.not_true, Bool.not_false,
        if_true, if_false] <;> rfl

/-- The owner loop, on a store of well-formed records, filters every list. -/
theorem sweepOwners_eq_of_wf (T : Int) : ∀ store : Store,
    (∀ p ∈ store, ∀ d ∈ p.2, WFRecord d = true) →
    sweepOwners (T - 7 * 24 * 60 * 60) store =
      .ok (store.map (fun p => (p.1, p.2.filter (fun d => !staleCompleted T d))))
  | [], _ => rfl
  | p :: ps, h => by
    have hp := filterKeep_eq_of_wf T p.2 (h p (by simp))
    have hps := sweepOwners_eq_of_wf T ps (fun x hx => h x (by simp [hx]))
    rw [sweepOwners, hp, hps]
    rfl

/-- C7 (amended): provided every completed record's truthy `completed_at`
is a well-formed timestamp, a sweep at time `T` removes exactly the records
with status `completed`, a truthy `completed_at`, and a `completed_at` at
least 7 days (604800 s, boundary included) before `T`; every other record
of every owner is kept unchanged in its original order. -/
theorem C7_sweep_amended (store : Store) (T : Int)
    (hwf : ∀ p ∈ store, ∀ d ∈ p.2, WFRecord d = true) :
    cleanup_old_status store T =
      store.map (fun p => (p.1, p.2.filter (fun d => !staleCompleted T d))) := by
  rw [cleanup_old_status, sweepOwners_eq_of_wf T store hwf]

/-- Witness for C7 (amended) on a concrete two-record store: the stale
completed record is dropped, the in-progress one is kept. -/
theorem C7_sweep_amended_witness :
    cleanup_old_status
      [("u", [[("status", Value.vStr "completed"), ("completed_at", Value.vTime 0)],
              [("status", Value.vStr "in_progress"), ("id", Value.vStr "a")]])]
      1000000 =
      [("u", [[("status", Value.vStr "in_progress"), ("id", Value.vStr "a")]])] :=
  (C7_sweep_amended _ 1000000 (by decide)).trans (by decide)

/-- Counterexample for C7 as stated: a record completed *exactly* 7 days
before the sweep time is removed by the code, although it is not "more than
7 days" old, so the claim's strict predicate says it must be kept. -/
theorem C7_sweep_counterexample :
    cleanup_old_status [("u", [[("status", Value.vStr "completed"),
        ("completed_at", Value.vTime 0)]])] 604800 = [("u", [])] ∧
    removedByClaim 604800 [("status", Value.vStr "completed"),
        ("completed_at", Value.vTime 0)] = false := by
  exact ⟨by decide, by decide⟩

/-! ## C6 / C10 — status store update -/

/-- Absent key characterisation for dict lookup. -/
theorem alistGet_none_iff {α : Type} (d : List (String × α)) (k : String) :
    alistGet d k = none ↔ ∀ kv ∈ d, kv.1 ≠ k := by
  simp [alistGet, List.find?_eq_none]

/-- Writing an absent key appends the pair. -/
theorem alistSet_absent {α : Type} (d : List (String × α)) (k : String)
    (v : α) (h : alistGet d k = none) : alistSet d k v = d ++ [(k, v)] := by
  rw [alistSet, if_neg]
  simp only [List.any_eq_true, decide_eq_true_eq]
  rintro ⟨kv, hmem, hk⟩
  exact (alistGet_none_iff d k).1 h kv hmem hk

/-- In-place overwrite leaves lookups at other keys alone. -/
theorem findP_map_ne {α : Type} (k k' : String) (v : α) (hne : k' ≠ k) :
    ∀ d : List (String × α),
    (d.map (fun kv => if kv.1 = k then (k, v) else kv)).find?
        (fun kv => kv.1 = k') =
      d.find? (fun kv => kv.1 = k')
  | [] => rfl
  | kv :: d => by
    by_cases hk : kv.1 = k
    · have e1 : (decide (((k, v) : String × α).1 = k')) = false := by
        simp only [decide_eq_false_iff_not]
        exact fun h => hne h.symm
      have e2 : (decide (kv.1 = k')) = false := by
        simp only [decide_eq_false_iff_not, hk]
        exact fun h => hne h.symm
      rw [List.map_cons, if_pos hk]
      simp only [List.find?_cons, e1, e2]
      exact findP_map_ne k k' v hne d
    · rw [List.map_cons, if_neg hk]
      simp only [List.find?_cons]
      by_cases hk' : kv.1 = k'
      · have e : (decide (kv.1 = k')) = true := by simpa using hk'
        simp only [e]
      · have e : (decide (kv.1 = k')) = false := by simpa using hk'
        simp only [e]
        exact findP_map_ne k k' v hne d

/-- In-place overwrite of a present key is found by a lookup at that key. -/
theorem findP_map_self {α : Type} (k : String) (v : α) :
    ∀ d : List (String × α), (∃ kv ∈ d, kv.1 = k) →
    (d.map (fun kv => if kv.1 = k then (k, v) else kv)).find?
        (fun kv => kv.1 = k) = some (k, v)
  | [], h => by simp at h
  | kv :: d, h => by
    by_cases hk : kv.1 = k
    · rw [List.map_cons, if_pos hk]
      simp [List.find?_cons]
    · rw [List.map_cons, if_neg hk]
      simp only [List.find?_cons]
      have e : (decide (kv.1 = k)) = false := by simpa using hk
      simp only [e]
      apply findP_map_self k v d
      rcases h with ⟨kv', hmem, hkv'⟩
      rcases List.mem_cons.1 hmem with h1 | h2
      · exact absurd (h1 ▸ hkv') hk
      · exact ⟨kv', h2, hkv'⟩

/-- Lookup at the written key after a dict write. -/
theorem alistGet_set_self {α : Type} (d : List (String × α)) (k : String)
    (v : α) : alistGet (alistSet d k v) k = some v := by
  by_cases hpres : d.any (fun kv => kv.1 = k)
  · rw [alistSet, if_pos hpres, alistGet]
    rw [findP_map_self k v d (by simpa using hpres)]
    rfl
  · have habs : alistGet d k = none := by
      rw [alistGet_none_iff]
      intro kv hmem hk
      exact hpres (List.any_eq_true.2 ⟨kv, hmem, by simpa using hk⟩)
    rw [alistSet_absent d k v habs, alistGet]
    induction d with
    | nil => simp [List.find?_cons]
    | cons kv d ih =>
      have hk : kv.1 ≠ k := (alistGet_none_iff _ k).1 habs kv (by simp)
      have habs' : alistGet d k = none := by
        rw [alistGet_none_iff]
        intro kv' hmem hk'
        exact (alistGet_none_iff _ k).1 habs kv' (by simp [hmem]) hk'
      have e : (decide (kv.1 = k)) = false := by simpa using hk
      simp only [List.cons_append, List.find?_cons, e]
      exact ih (by
        intro hany
        exact hpres (by
          rcases List.any_eq_true.1 hany with ⟨x, hx, hpx⟩
          exact List.any_eq_true.2 ⟨x, by simp [hx], hpx⟩)) habs'

/-- Lookup at a different key after a dict write. -/
theorem alistGet_set_ne {α : Type} (d : List (String × α)) (k k' : String)
    (v : α) (hne : k' ≠ k) : alistGet (alistSet d k v) k' = alistGet d k' := by
  by_cases hpres : d.any (fun kv => kv.1 = k)
  · rw [alistSet, if_pos hpres, alistGet, findP_map_ne k k' v hne d, alistGet]
  · rw [alistSet, if_neg hpres, alistGet, alistGet]
    induction d with
    | nil =>
      simp only [List.nil_append, List.find?_cons]
      have e : (decide (((k, v) : String × α).1 = k')) = false := by
        simp only [decide_eq_false_iff_not]
        exact fun h => hne h.symm
      simp [e, List.find?_nil]
    | cons kv d ih =>
      simp only [List.cons_append, List.find?_cons]
      by_cases hk' : kv.1 = k'
      · have e : (decide (kv.1 = k')) = true := by simpa using hk'
        simp only [e]
      · have e : (decide (kv.1 = k')) = false := by simpa using hk'
        simp only [e]
        exact ih (by
          intro hany
          exact hpres (by
            rcases List.any_eq_true.1 hany with ⟨x, hx, hpx⟩
            exact List.any_eq_true.2 ⟨x, by simp [hx], hpx⟩))

/-- Lookup at a key placed at the end behind an absent prefix. -/
theorem alistGet_append_self {α : Type} (d : List (String × α)) (k : String)
    (v : α) (h : alistGet d k = none) : alistGet (d ++ [(k, v)]) k = some v := by
  have hs := alistGet_set_self d k v
  rw [alistSet_absent d k v h] at hs
  exact hs

/-- Rewriting the appended key behind an absent prefix replaces its value. -/
theorem alistSet_append_self {α : Type} (d : List (String × α)) (k : String)
    (w v : α) (h : alistGet d k = none) :
    alistSet (d ++ [(k, w)]) k v = d ++ [(k, v)] := by
  rw [alistSet, if_pos]
  · rw [List.map_append]
    have hid : ∀ kv ∈ d, (if kv.1 = k then (k, v) else kv) = kv :=
      fun kv hm => if_neg ((alistGet_none_iff d k).1 h kv hm)
    rw [List.map_congr_left hid, List.map_id']
    simp
  · exact List.any_eq_true.2 ⟨(k, w), by simp, by simp⟩

/-- Unfolding step for a dict-literal merge. -/
theorem dmerge_cons (d : PyDict) (kv : String × Value) (u : PyDict) :
    dmerge d (kv :: u) = dmerge (alistSet d kv.1 kv.2) u := rfl

/-- Keys absent from the update are untouched by the merge. -/
theorem alistGet_dmerge_none (k : String) :
    ∀ (u d : PyDict), alistGet u k = none →
    alistGet (dmerge d u) k = alistGet d k
  | [], _, _ => rfl
  | kv :: u, d, h => by
    have hk : kv.1 ≠ k := (alistGet_none_iff _ k).1 h kv (by simp)
    have hu : alistGet u k = none := by
      rw [alistGet_none_iff]
      exact fun kv' hm => (alistGet_none_iff _ k).1 h kv' (by simp [hm])
    rw [dmerge_cons, alistGet_dmerge_none k u (alistSet d kv.1 kv.2) hu]
    exact alistGet_set_ne d kv.1 k kv.2 (fun hkk => hk hkk.symm)

/-- Keys present in a duplicate-free update take the update's value. -/
theorem alistGet_dmerge_some (k : String) (v : Value) :
    ∀ (u d : PyDict), (u.map Prod.fst).Nodup → alistGet u k = some v →
    alistGet (dmerge d u) k = some v
  | [], d, _, h => by simp [alistGet] at h
  | kv :: u, d, hnd, h => by
    rw [List.map_cons, List.nodup_cons] at hnd
    by_cases hk : kv.1 = k
    · have hv : kv.2 = v := by
        rw [alistGet] at h
        have e : (decide (kv.1 = k)) = true := by simpa using hk
        simp only [List.find?_cons, e, Option.map_some] at h
        exact Option.some.inj h
      have hu : alistGet u k = none := by
        rw [alistGet_none_iff]
        intro kv' hm hk'
        exact hnd.1 (by rw [hk, ← hk']; exact List.mem_map_of_mem Prod.fst hm)
      rw [dmerge_cons, alistGet_dmerge_none k u _ hu, ← hk,
        alistGet_set_self, hv]
    · have hu : alistGet u k = some v := by
        rw [alistGet] at h ⊢
        have e : (decide (kv.1 = k)) = false := by simpa using hk
        simpa only [List.find?_cons, e] using h
      rw [dmerge_cons]
      exact alistGet_dmerge_some k v u (alistSet d kv.1 kv.2) hnd.2 hu

/-- When no record under the owner matches the id (and each has an `"id"`
key), the search loop finds nothing and leaves the list unchanged. -/
theorem updateRecords_no_match (jobId : String) (updates : PyDict) :
    ∀ jobs : List PyDict, (∀ job ∈ jobs, noMatchingId jobId job = true) →
    updateRecords jobId updates jobs = .ok (false, jobs)
  | [], _ => rfl
  | job :: jobs, h => by
    have hj := h job (by simp)
    have ih := updateRecords_no_match jobId updates jobs
      (fun x hx => h x (by simp [hx]))
    rw [noMatchingId] at hj
    cases hid : alistGet job "id" with
    | none => rw [hid] at hj; simp at hj
    | some v =>
      rw [hid] at hj
      have hv : ¬(v = Value.vStr jobId) := by simpa using hj
      simp only [updateRecords, hid]
      rw [if_neg hv, ih]
      rfl

/-- Reduction of a bind on a successful `Except` computation. -/
theorem exceptBind_ok {ε α β : Type} (a : α) (f : α → Except ε β) :
    (Except.ok a : Except ε α) >>= f = f a := rfl

/-- C6 (amended): on a store where every record under the owner carries an
`"id"` key and none matches the given id, an update whose fields include a
`"title"` but no `"id"` appends exactly one new record under that owner; the
record carries the given id, status `in_progress` unless the fields carry a
status, and every field of the update; all other ids and owners are
unchanged. -/
theorem C6_update_creates_record_amended (store : Store) (user jobId : String)
    (updates : PyDict)
    (hids : ∀ job ∈ jobsOf store user, noMatchingId jobId job = true)
    (htitle : (alistGet updates "title").isSome = true)
    (hnoid : alistGet updates "id" = none)
    (hnodup : (updates.map Prod.fst).Nodup) :
    update_job_status store user jobId updates =
      .ok (alistSet store user
        (jobsOf store user ++ [newRecordFor jobId updates])) ∧
    alistGet (newRecordFor jobId updates) "id" = some (Value.vStr jobId) ∧
    alistGet (newRecordFor jobId updates) "status" =
      some ((alistGet updates "status").getD (Value.vStr "in_progress")) ∧
    (∀ k v, alistGet updates k = some v →
      alistGet (newRecordFor jobId updates) k = some v) ∧
    (∀ u, u ≠ user →
      alistGet (alistSet store user
        (jobsOf store user ++ [newRecordFor jobId updates])) u =
        alistGet store u) := by
  refine ⟨?_, ?_, ?_, ?_, ?_⟩
  · have hjs₁ : jobsOf
        (if (alistGet store user).isNone then alistSet store user [] else store)
        user = jobsOf store user := by
      cases hcase : alistGet store user with
      | some js => simp [hcase]
      | none =>
        simp only [hcase, Option.isNone_none, if_true]
        rw [jobsOf, alistSet_absent store user [] hcase,
          alistGet_append_self store user [] hcase, jobsOf, hcase]
        rfl
    have hset : alistSet
        (if (alistGet store user).isNone then alistSet store user [] else store)
        user (jobsOf store user ++ [newRecordFor jobId updates]) =
        alistSet store user (jobsOf store user ++ [newRecordFor jobId updates]) := by
      cases hcase : alistGet store user with
      | some js => simp [hcase]
      | none =>
        simp only [hcase, Option.isNone_none, if_true]
        rw [alistSet_absent store user [] hcase,
          alistSet_append_self store user [] _ hcase,
          alistSet_absent store user _ hcase]
    simp only [update_job_status, hjs₁,
      updateRecords_no_match jobId updates (jobsOf store user) hids]
    rw [exceptBind_ok]
    rw [if_pos (⟨rfl, htitle⟩ :
      ((false, jobsOf store user) : Bool × List PyDict).1 = false ∧
        (alistGet updates "title").isSome = true)]
    rw [hset]
    rfl
  · rw [newRecordFor, alistGet_dmerge_none "id" updates _ hnoid]
    rfl
  · cases hstat : alistGet updates "status" with
    | none =>
      rw [newRecordFor, alistGet_dmerge_none "status" updates _ hstat]
      rfl
    | some sv =>
      rw [newRecordFor, alistGet_dmerge_some "status" sv updates _ hnodup hstat]
      rfl
  · intro k v hkv
    exact alistGet_dmerge_some k v updates _ hnodup hkv
  · intro u hu
    exact alistGet_set_ne store user u _ hu

/-- Witness for C6 (amended) on a concrete store: an update for an unknown
id under an existing owner appends exactly one synthesized record. -/
theorem C6_update_creates_record_witness :
    update_job_status [("alice", [[("id", Value.vStr "j1")]])] "alice" "j2"
      [("title", Value.vStr "X")] =
      .ok [("alice", [[("id", Value.vStr "j1")],
        [("id", Value.vStr "j2"), ("status", Value.vStr "in_progress"),
         ("title", Value.vStr "X")]])] :=
  ((C6_update_creates_record_amended [("alice", [[("id", Value.vStr "j1")]])]
      "alice" "j2" [("title", Value.vStr "X")]
      (by decide) (by decide) (by decide) (by decide)).1).trans (by rfl)

/-- Counterexample for C6 as stated: when the fields themselves carry an
`"id"`, the `**updates` splat overrides the default, so the created record
does not carry the given id `"j"` but the fields' own `"k"`. -/
theorem C6_update_counterexample :
    update_job_status [] "u" "j"
      [("title", Value.vStr "X"), ("id", Value.vStr "k")] =
      .ok [("u", [[("id", Value.vStr "k"), ("status", Value.vStr "in_progress"),
        ("title", Value.vStr "X")]])] ∧
    alistGet [("id", Value.vStr "k"), ("status", Value.vStr "in_progress"),
        ("title", Value.vStr "X")] "id" ≠ some (Value.vStr "j") := by
  constructor
  · rfl
  · decide

/-- C10: an update with no `"title"` for an id unknown under an owner absent
from the mapping creates no record, yet rewrites the document with the owner
now mapped to an empty list; all existing owners' lists are unchanged. -/
theorem C10_update_no_title_new_owner (store : Store) (user jobId : String)
    (updates : PyDict) (habsent : alistGet store user = none)
    (hnotitle : alistGet updates "title" = none) :
    update_job_status store user jobId updates = .ok (store ++ [(user, [])]) ∧
    (∀ u, u ≠ user → alistGet (store ++ [(user, [])]) u = alistGet store u) := by
  constructor
  · have hjobs : jobsOf (alistSet store user []) user = [] := by
      rw [alistSet_absent store user [] habsent, jobsOf,
        alistGet_append_self store user [] habsent]
      rfl
    simp only [update_job_status, habsent, Option.isNone_none, if_true, hjobs]
    rw [show updateRecords jobId updates [] = .ok (false, []) from rfl]
    rw [exceptBind_ok]
    rw [if_neg]
    · rw [alistSet_absent store user [] habsent,
        alistSet_append_self store user [] [] habsent]
      rfl
    · intro hcon
      rw [hnotitle] at hcon
      exact absurd hcon.2 (by simp)
  · intro u hu
    rw [← alistSet_absent store user [] habsent]
    exact alistGet_set_ne store user u [] hu

/-- Witness for C10 on a concrete store: updating an unknown id with no
title under the absent owner `"alice"` leaves `"bob"` untouched and adds
`"alice"` mapped to an empty list. -/
theorem C10_update_no_title_new_owner_witness :
    update_job_status [("bob", [[("id", Value.vStr "z")]])] "alice" "j"
      [("status", Value.vStr "failed")] =
      .ok [("bob", [[("id", Value.vStr "z")]]), ("alice", [])] :=
  ((C10_update_no_title_new_owner [("bob", [[("id", Value.vStr "z")]])]
      "alice" "j" [("status", Value.vStr "failed")]
      (by decide) (by decide)).1).trans (by rfl)

/-! ## C9 — `get_all_tasks` returns references, not copies -/

/-- C9 (amended): `get_all_tasks` hands out references to the scheduler's
own task objects; `admin_set_priority`, which mutates the first matching
task obtained from that list, thereby updates the scheduler's own stored
record in place (that aliasing is exactly how the route takes effect),
leaving every other task object and both collections unchanged. -/
theorem C9_list_all_aliases_amended (s : QueueRefState) (tid : String)
    (p : Int) (r : Nat) (t : TaskRec)
    (hfind : (get_all_tasks s).find? (refHasId s tid) = some r)
    (hget : s.heap.get? r = some t) :
    (admin_set_priority s tid p).heap.get? r = some { t with priority := p } ∧
    (∀ r', r' ≠ r →
      (admin_set_priority s tid p).heap.get? r' = s.heap.get? r') ∧
    (admin_set_priority s tid p).activeRefs = s.activeRefs ∧
    (admin_set_priority s tid p).pendingRefs = s.pendingRefs ∧
    t.id = tid := by
  have hrlt : r < s.heap.length := by
    by_contra hcon
    rw [List.get?_eq_none.2 (by omega)] at hget
    cases hget
  simp only [admin_set_priority, hfind, hget]
  refine ⟨?_, ?_, trivial, trivial, ?_⟩
  · rw [List.get?_eq_getElem?, List.getElem?_set_eq_of_lt _ (by simpa using hrlt)]
  · intro r' hne
    rw [List.get?_eq_getElem?, List.get?_eq_getElem?,
      List.getElem?_set_ne (fun h => hne h.symm)]
  · have hp := List.find?_some hfind
    rw [refHasId, hget] at hp
    simpa using hp

/-- Witness for C9 (amended): with task `"b"` active and `"a"` pending, the
route finds `"a"` through `get_all_tasks` and its stored record's priority
becomes 7. -/
theorem C9_list_all_aliases_witness :
    (admin_set_priority
        ⟨[⟨"a", 0, false⟩, ⟨"b", 3, false⟩], [1], [(0, 0)]⟩ "a" 7).heap.get? 0 =
      some ⟨"a", 7, false⟩ :=
  (C9_list_all_aliases_amended
      ⟨[⟨"a", 0, false⟩, ⟨"b", 3, false⟩], [1], [(0, 0)]⟩ "a" 7 0
      ⟨"a", 0, false⟩ (by rfl) (by rfl)).1

/-- Counterexample for C9 as stated: mutating the task object obtained from
`get_all_tasks` (as `admin_set_priority` does) *changes* the scheduler's own
stored record — the returned tasks are shared references, not snapshots. -/
theorem C9_list_all_counterexample :
    (admin_set_priority ⟨[⟨"a", 0, false⟩], [], [(0, 0)]⟩ "a" 7).heap =
      [⟨"a", 7, false⟩] ∧
    [(⟨"a", 0, false⟩ : TaskRec)] ≠ [(⟨"a", 7, false⟩ : TaskRec)] := by
  exact ⟨rfl, by decide⟩

/-! ## C8 — submission validation -/

/-- C8 (amended): a submission yields a server error when the priority field
does not parse as an integer (before anything is enqueued); it is rejected
(no task added) exactly when the *stripped* url is empty; otherwise the
task — with the stripped url and whatever owner the session holds, which is
never validated — is pushed onto the pending heap, which on success holds
exactly the old entries plus the new `(-priority, task)` entry.  When the
push's tie comparison raises, the request answers 500 but the entry was
already appended before the comparison: the shared queue keeps the state
the raise left, one slot longer than before — and when the very first
comparison raises, exactly the old queue followed by the new entry, which
stays visible and dispatchable. -/
theorem C8_submit_amended (freshId formUrl owner : String) (fp : Option Int)
    (pending : List (Int × DLTask)) :
    (fp = none →
      download_route freshId formUrl owner fp pending = (.serverError, pending)) ∧
    (∀ p, fp = some p → pyStrip formUrl = "" →
      download_route freshId formUrl owner fp pending = (.rejected, pending)) ∧
    (∀ p q', fp = some p → pyStrip formUrl ≠ "" →
      add_task pending ⟨freshId, pyStrip formUrl, owner, p⟩ = .ok q' →
      download_route freshId formUrl owner fp pending =
        (.queued ⟨freshId, pyStrip formUrl, owner, p⟩, q') ∧
      q'.Perm ((-p, (⟨freshId, pyStrip formUrl, owner, p⟩ : DLTask)) :: pending)) ∧
    (∀ p q', fp = some p → pyStrip formUrl ≠ "" →
      add_task pending ⟨freshId, pyStrip formUrl, owner, p⟩ = .error q' →
      download_route freshId formUrl owner fp pending = (.serverError, q') ∧
      q'.length = pending.length + 1) ∧
    (∀ p parent, fp = some p → pyStrip formUrl ≠ "" → pending ≠ [] →
      pending.get? ((pending.length - 1) / 2) = some parent →
      pyEntryLt (-p, (⟨freshId, pyStrip formUrl, owner, p⟩ : DLTask)) parent =
        .error () →
      download_route freshId formUrl owner fp pending =
        (.serverError,
         pending ++ [(-p, ⟨freshId, pyStrip formUrl, owner, p⟩)])) := by
  refine ⟨?_, ?_, ?_, ?_, ?_⟩
  · intro h
    subst h
    rfl
  · intro p h hurl
    subst h
    simp only [download_route]
    rw [if_pos hurl]
  · intro p q' h hurl hok
    subst h
    constructor
    · simp only [download_route]
      rw [if_neg hurl, hok]
    · exact heappushE_perm pyEntryLt pending _ q' hok
  · intro p q' h hurl herr
    subst h
    constructor
    · simp only [download_route]
      rw [if_neg hurl, herr]
    · exact heappushE_error_length pyEntryLt pending _ q' herr
  · intro p parent h hurl hne hpar hcmp
    subst h
    have herr : add_task pending ⟨freshId, pyStrip formUrl, owner, p⟩ =
        .error (pending ++ [(-p, ⟨freshId, pyStrip formUrl, owner, p⟩)]) :=
      heappushE_error_first pyEntryLt pending _ parent () hne hpar hcmp
    simp only [download_route]
    rw [if_neg hurl, herr]

/-- Witness for C8 (amended): a whitespace-padded url and an *empty* owner
are accepted (one entry joins the heap), and a push that ties with the
queued entry's priority answers 500 while the new entry stays appended in
the queue. -/
theorem C8_submit_amended_witness :
    (download_route "t1" " http://x " "" (some 3) [] =
      (.queued ⟨"t1", "http://x", "", 3⟩, [(-3, ⟨"t1", "http://x", "", 3⟩)]) ∧
    ([(-3, (⟨"t1", "http://x", "", 3⟩ : DLTask))]).Perm
      ((-3, (⟨"t1", "http://x", "", 3⟩ : DLTask)) :: [])) ∧
    download_route "t2" "http://y" "bob" (some 5)
        [(-5, ⟨"t0", "url0", "alice", 5⟩)] =
      (.serverError, [(-5, ⟨"t0", "url0", "alice", 5⟩),
                      (-5, ⟨"t2", "http://y", "bob", 5⟩)]) :=
  ⟨(C8_submit_amended "t1" " http://x " "" (some 3) []).2.2.1 3
      [(-3, ⟨"t1", "http://x", "", 3⟩)] rfl (by decide) (by rfl),
   (C8_submit_amended "t2" "http://y" "bob" (some 5)
      [(-5, ⟨"t0", "url0", "alice", 5⟩)]).2.2.2.2 5
      (-5, ⟨"t0", "url0", "alice", 5⟩) rfl (by decide) (by decide)
      (by rfl) (by rfl)⟩

/-- Counterexample for C8 as stated: the claim requires rejection iff the
url or the owner is empty.  The code enqueues a task for an empty owner,
and rejects a whitespace-only url (which is not the empty string) for a
non-empty owner — the owner is never checked and the url is stripped
first. -/
theorem C8_submit_counterexample :
    (download_route "t1" "http://x" "" (some 0) []).2 =
      [(0, (⟨"t1", "http://x", "", 0⟩ : DLTask))] ∧
    download_route "t2" " " "alice" (some 0) [] = (.rejected, []) := by
  exact ⟨rfl, rfl⟩

/-! ## C2 — bounded concurrency -/

/-- Mutating the first matching task keeps the collection's size. -/
theorem updFirst_length (i : Nat) (g : QTask → QTask) :
    ∀ l : List QTask, (updFirst i g l).length = l.length
  | [] => rfl
  | t :: ts => by
    rw [updFirst]
    by_cases h : t.id = i <;> simp [h, updFirst_length i g ts]

/-- Members of the mutated collection are old members or the image of a
matching old member. -/
theorem mem_updFirst {i : Nat} {g : QTask → QTask} :
    ∀ {l : List QTask} {t' : QTask}, t' ∈ updFirst i g l →
    t' ∈ l ∨ ∃ t, t ∈ l ∧ t.id = i ∧ t' = g t
  | [], t', h => by simp [updFirst] at h
  | t :: ts, t', h => by
    rw [updFirst] at h
    by_cases hid : t.id = i
    · rw [if_pos hid] at h
      rcases List.mem_cons.1 h with h1 | h2
      · exact Or.inr ⟨t, by simp, hid, h1⟩
      · exact Or.inl (List.mem_cons.2 (Or.inr h2))
    · rw [if_neg hid] at h
      rcases List.mem_cons.1 h with h1 | h2
      · exact Or.inl (by simp [h1])
      · rcases mem_updFirst h2 with h3 | ⟨u, hu, hui, hgu⟩
        · exact Or.inl (by simp [h3])
        · exact Or.inr ⟨u, by simp [hu], hui, hgu⟩

/-- Control-surface mutations preserve the concurrency-bound invariant. -/
theorem boundInv_updById {max i : Nat} {g : QTask → QTask} {s : SchedState}
    (hinv : BoundInv max s) : BoundInv max (updById i g s) := by
  rw [updById]
  by_cases hc : s.active.any (fun t => t.id = i)
  · rw [if_pos hc]
    refine ⟨?_, ?_⟩
    · simpa [updFirst_length] using hinv.1
    · cases hpc : s.pc with
      | idle => trivial
      | holding t =>
        have h2 := hinv.2
        rw [hpc] at h2
        simpa [updFirst_length] using h2
  · rw [if_neg hc]
    exact hinv

/-- Every atomic step preserves the concurrency-bound invariant. -/
theorem boundInv_step {max : Nat} {s : SchedState} {l : Lbl}
    {s' : SchedState} (hstep : Step max s l s') (hinv : BoundInv max s) :
    BoundInv max s' := by
  obtain ⟨h1, h2⟩ := hinv
  cases hstep with
  | submit t => exact ⟨h1, h2⟩
  | get t l₁ l₂ hpc hlt hpend => exact ⟨h1, hlt⟩
  | requeue t hpc hpaused => exact ⟨h1, trivial⟩
  | handoff t hpc hpaused =>
    have h2' : s.active.length < max := by rw [hpc] at h2; exact h2
    refine ⟨?_, trivial⟩
    simp only [List.length_append, List.length_cons, List.length_nil]
    omega
  | finish t l₁ l₂ hact =>
    have hlen : (l₁ ++ l₂).length + 1 = s.active.length := by
      rw [hact]
      simp only [List.length_append, List.length_cons]
      omega
    refine ⟨?_, ?_⟩
    · show (l₁ ++ l₂).length ≤ max
      omega
    · cases hpc : s.pc with
      | idle => trivial
      | holding u =>
        have h2' := h2
        rw [hpc] at h2'
        show (l₁ ++ l₂).length < max
        omega
  | pause i => exact boundInv_updById ⟨h1, h2⟩
  | resume i => exact boundInv_updById ⟨h1, h2⟩
  | setPriority i p => exact boundInv_updById ⟨h1, h2⟩
  | setLimit v => exact ⟨h1, h2⟩

/-- C2: in every reachable state of the scheduler — dispatch-loop steps,
worker completions, submissions and control operations interleaved in any
order — the active set never holds more than `max_concurrent` tasks. -/
theorem C2_active_bounded (max : Nat) (s : SchedState) (h : Reach max s) :
    s.active.length ≤ max := by
  suffices hinv : BoundInv max s from hinv.1
  induction h with
  | init => exact ⟨by simp [initState], trivial⟩
  | step hr hstep ih => exact boundInv_step hstep ih

/-- Witness for C2: a three-step execution (submit, get, hand off) under
`max_concurrent = 1` reaches a state whose active set has one task. -/
theorem C2_active_bounded_witness :
    (⟨[], [⟨7, 0, false⟩], .idle, none⟩ : SchedState).active.length ≤ 1 :=
  C2_active_bounded 1 _ (Reach.step (Reach.step (Reach.step Reach.init
    (Step.submit initState ⟨7, 0, false⟩))
    (Step.get _ ⟨7, 0, false⟩ [] [] rfl (by decide) rfl))
    (Step.handoff _ ⟨7, 0, false⟩ rfl rfl))

/-! ## C3 — paused tasks are never dispatched until resumed -/

/-- Propositional reading of the paused-pinned state predicate. -/
theorem pausedPinned_iff (i : Nat) (s : SchedState) :
    pausedPinned i s = true ↔
      ((∀ t ∈ s.pending, t.id = i → t.paused = true) ∧
       (∀ t : QTask, s.pc = .holding t → t.id = i → t.paused = true) ∧
       (∀ t ∈ s.active, t.id ≠ i)) := by
  obtain ⟨pend, act, pc, gl⟩ := s
  cases pc with
  | idle =>
    rw [pausedPinned]
    simp only [Bool.and_eq_true, List.all_eq_true]
    constructor
    · rintro ⟨⟨h1, _⟩, h3⟩
      refine ⟨?_, ?_, ?_⟩
      · intro t ht hti
        simpa [hti] using h1 t ht
      · intro t heq
        cases heq
      · intro t ht
        simpa using h3 t ht
    · rintro ⟨h1, _, h3⟩
      refine ⟨⟨?_, trivial⟩, ?_⟩
      · intro t ht
        by_cases hti : t.id = i
        · simp [hti, h1 t ht hti]
        · simp [hti]
      · intro t ht
        simpa using h3 t ht
  | holding u =>
    rw [pausedPinned]
    simp only [Bool.and_eq_true, List.all_eq_true]
    constructor
    · rintro ⟨⟨h1, h2⟩, h3⟩
      refine ⟨?_, ?_, ?_⟩
      · intro t ht hti
        simpa [hti] using h1 t ht
      · intro t heq hti
        have hu : u = t := DispatchPC.holding.inj heq
        subst hu
        simpa [hti] using h2
      · intro t ht
        simpa using h3 t ht
    · rintro ⟨h1, h2, h3⟩
      refine ⟨⟨?_, ?_⟩, ?_⟩
      · intro t ht
        by_cases hti : t.id = i
        · simp [hti, h1 t ht hti]
        · simp [hti]
      · by_cases hti : u.id = i
        · simp [hti, h2 u rfl hti]
        · simp [hti]
      · intro t ht
        simpa using h3 t ht

/-- Propositional reading of the empty-of-id active-set predicate. -/
theorem noActiveId_iff (i : Nat) (s : SchedState) :
    noActiveId i s = true ↔ ∀ t ∈ s.active, t.id ≠ i := by
  simp [noActiveId, List.all_eq_true]

/-- A control-surface mutation that preserves ids, and preserves the paused
flag of any matching task that carries id `i`, preserves the pinned
predicate. -/
theorem pausedPinned_updById {i j : Nat} {g : QTask → QTask} {s : SchedState}
    (hid : ∀ t, (g t).id = t.id)
    (hpres : ∀ t, t.id = j → t.id = i → t.paused = true → (g t).paused = true)
    (h : pausedPinned i s = true) : pausedPinned i (updById j g s) = true := by
  rw [pausedPinned_iff] at h
  obtain ⟨hpend, hpc, hact⟩ := h
  rw [updById]
  by_cases hc : s.active.any (fun t => t.id = j)
  · rw [if_pos hc, pausedPinned_iff]
    refine ⟨hpend, hpc, ?_⟩
    intro t' ht'
    rcases mem_updFirst ht' with h1 | ⟨t, ht, htj, hgt⟩
    · exact hact t' h1
    · rw [hgt, hid t]
      exact hact t ht
  · rw [if_neg hc, pausedPinned_iff]
    refine ⟨?_, hpc, hact⟩
    intro t' ht' hti
    rcases mem_updFirst ht' with h1 | ⟨t, ht, htj, hgt⟩
    · exact hpend t' h1 hti
    · subst hgt
      have hti' : t.id = i := by rw [← hid t]; exact hti
      exact hpres t htj hti' (hpend t ht hti')

/-- Every allowed step (no resume of `i`, no duplicate submission of `i`)
preserves the pinned predicate: in particular the dispatcher never moves the
paused task into the active set. -/
theorem pausedPinned_step {max i : Nat} {s : SchedState} {l : Lbl}
    {s' : SchedState} (hstep : Step max s l s') (hok : okLbl i l = true)
    (h : pausedPinned i s = true) : pausedPinned i s' = true := by
  cases hstep with
  | submit t =>
    rw [pausedPinned_iff] at h ⊢
    obtain ⟨hpend, hpc, hact⟩ := h
    refine ⟨?_, hpc, hact⟩
    intro t' ht' hti
    rcases List.mem_append.1 ht' with h1 | h2
    · exact hpend t' h1 hti
    · have ht : t' = t := by simpa using h2
      subst ht
      rw [okLbl] at hok
      simp at hok
      exact absurd hti hok
  | get t l₁ l₂ hpc hlt hpend' =>
    rw [pausedPinned_iff] at h ⊢
    obtain ⟨hpend, hpc2, hact⟩ := h
    refine ⟨?_, ?_, hact⟩
    · intro t' ht' hti
      refine hpend t' ?_ hti
      rw [hpend']
      rcases List.mem_append.1 ht' with h1 | h2
      · exact List.mem_append.2 (Or.inl h1)
      · exact List.mem_append.2 (Or.inr (by simp [h2]))
    · intro t'' heq hti
      have ht : t = t'' := by
        have : DispatchPC.holding t = DispatchPC.holding t'' := heq
        exact DispatchPC.holding.inj this
      subst ht
      refine hpend t ?_ hti
      rw [hpend']
      exact List.mem_append.2 (Or.inr (by simp))
  | requeue t hpc hpaused =>
    rw [pausedPinned_iff] at h ⊢
    obtain ⟨hpend, hpc2, hact⟩ := h
    refine ⟨?_, ?_, hact⟩
    · intro t' ht' hti
      rcases List.mem_append.1 ht' with h1 | h2
      · exact hpend t' h1 hti
      · have ht : t' = t := by simpa using h2
        subst ht
        exact hpaused
    · intro u heq
      cases heq
  | handoff t hpc hpaused =>
    rw [pausedPinned_iff] at h ⊢
    obtain ⟨hpend, hpc2, hact⟩ := h
    refine ⟨hpend, ?_, ?_⟩
    · intro u heq
      cases heq
    · intro t' ht' hti
      rcases List.mem_append.1 ht' with h1 | h2
      · exact hact t' h1 hti
      · have ht : t' = t := by simpa using h2
        subst ht
        rw [hpc2 t' hpc hti] at hpaused
        cases hpaused
  | finish t l₁ l₂ hact' =>
    rw [pausedPinned_iff] at h ⊢
    obtain ⟨hpend, hpc2, hact⟩ := h
    refine ⟨hpend, hpc2, ?_⟩
    intro t' ht'
    refine hact t' ?_
    rw [hact']
    rcases List.mem_append.1 ht' with h1 | h2
    · exact List.mem_append.2 (Or.inl h1)
    · exact List.mem_append.2 (Or.inr (by simp [h2]))
  | pause j =>
    exact pausedPinned_updById (fun t => rfl) (fun t _ _ _ => rfl) h
  | resume j =>
    refine pausedPinned_updById (fun t => rfl) ?_ h
    intro t htj hti hp
    rw [okLbl] at hok
    simp at hok
    exact absurd (htj.symm.trans hti) hok
  | setPriority j p =>
    exact pausedPinned_updById (fun t => rfl) (fun t _ _ hp => hp) h
  | setLimit v =>
    rw [pausedPinned_iff] at h ⊢
    exact h

/-- The pinned predicate is preserved along any execution whose labels never
resume `i` nor submit a second task with id `i`. -/
theorem pausedPinned_exec {max i : Nat} {s : SchedState} {ls : List Lbl}
    {s' : SchedState} (hx : Exec max s ls s')
    (hok : ∀ l ∈ ls, okLbl i l = true) (h : pausedPinned i s = true) :
    pausedPinned i s' = true := by
  induction hx with
  | refl s => exact h
  | cons hstep hrest ih =>
    exact ih (fun l hl => hok l (by simp [hl]))
      (pausedPinned_step hstep (hok _ (by simp)) h)

/-- Splitting the pending collection at the first task with id `i`, a resume
of `i` (with no active task carrying the id) clears exactly that task's
paused flag in place. -/
theorem updFirst_first_match (i : Nat) (g : QTask → QTask) :
    ∀ (l₁ : List QTask) (t : QTask) (l₂ : List QTask),
    (∀ u ∈ l₁, u.id ≠ i) → t.id = i →
    updFirst i g (l₁ ++ t :: l₂) = l₁ ++ g t :: l₂
  | [], t, l₂, _, hti => by simp [updFirst, hti]
  | u :: l₁, t, l₂, h, hti => by
    rw [List.cons_append, updFirst, if_neg (h u (by simp)),
      updFirst_first_match i g l₁ t l₂ (fun x hx => h x (by simp [hx])) hti,
      List.cons_append]

/-- C3: a task whose paused flag is true while pending is never handed to a
worker by any interleaving that does not resume its id (first conjunct: its
id never appears in the active set).  Once resumed it is eligible again:
resume clears exactly the paused flag of the first pending task with the id
(second conjunct), and the dispatcher's hand-off step applies to any held
non-paused task (third conjunct). -/
theorem C3_paused_not_dispatched (max i : Nat) (s : SchedState)
    (ls : List Lbl) (s' : SchedState) (hx : Exec max s ls s')
    (hok : ∀ l ∈ ls, okLbl i l = true)
    (h0 : pausedPinned i s = true) :
    noActiveId i s' = true ∧
    (∀ (s₂ : SchedState) (l₁ l₂ : List QTask) (t : QTask),
      s₂.active.any (fun a => a.id = i) = false →
      s₂.pending = l₁ ++ t :: l₂ → (∀ u ∈ l₁, u.id ≠ i) → t.id = i →
      (updById i (fun x => { x with paused := false }) s₂).pending =
        l₁ ++ { t with paused := false } :: l₂) ∧
    (∀ (s₃ : SchedState) (t : QTask), s₃.pc = .holding t → t.paused = false →
      Step max s₃ .handoff { s₃ with active := s₃.active ++ [t], pc := .idle }) := by
  refine ⟨?_, ?_, ?_⟩
  · have h' := pausedPinned_exec hx hok h0
    rw [pausedPinned_iff] at h'
    rw [noActiveId_iff]
    exact h'.2.2
  · intro s₂ l₁ l₂ t hany hpend hl₁ hti
    rw [updById, if_neg (by simp [hany])]
    show updFirst i (fun x => { x with paused := false }) s₂.pending = _
    rw [hpend, updFirst_first_match i _ l₁ t l₂ hl₁ hti]
  · intro s₃ t hpc hp
    exact Step.handoff s₃ t hpc hp

/-- Witness for C3: task id 1 sits pending and paused; a trace that submits,
dispatches and hands off an unrelated task id 2 never activates id 1. -/
theorem C3_paused_not_dispatched_witness :
    noActiveId 1 (⟨[⟨1, 5, true⟩], [⟨2, 0, false⟩], .idle, none⟩ : SchedState) = true :=
  (C3_paused_not_dispatched 1 1 ⟨[⟨1, 5, true⟩], [], .idle, none⟩
    [.submit ⟨2, 0, false⟩, .get ⟨2, 0, false⟩, .handoff] _
    (Exec.cons (Step.submit _ ⟨2, 0, false⟩)
      (Exec.cons (Step.get _ ⟨2, 0, false⟩ [⟨1, 5, true⟩] [] rfl (by decide) rfl)
        (Exec.cons (Step.handoff _ ⟨2, 0, false⟩ rfl rfl)
          (Exec.refl _))))
    (by decide) (by decide)).1
